import Mathlib

/-!
Verification of the gust package manager core against its specification.

This file gives a shallow embedding, in Lean 4, of the parts of the gust
source that the checked claims are about:

* the semver `Version` order and requirement matching used by the resolver
  (`crates/gust-types`, re-exporting the `semver` crate);
* the resolver's version-set algebra `GustVersionSet` and the
  `choose_version` policy of `GustDependencyProvider`
  (`crates/gust-resolver/src/provider.rs`);
* the content-addressed store `GlobalCache`
  (`crates/gust-cache/src/lib.rs`);
* the local binary artifact cache `LocalBinaryCache` and the directory
  hash `hash_sources` (`crates/gust-binary-cache/src/lib.rs`);
* the fetcher `Fetcher::fetch` / `fetch_many` and `compute_dir_hash`
  (`crates/gust-fetch/src/lib.rs`);
* the installer's iterative transitive-discovery resolve loop
  (`crates/gust/src/install.rs`);
* the post-processing of a PubGrub solution in `Resolver::resolve`
  (`crates/gust-resolver/src/lib.rs`).

External collaborators (BLAKE3, the filesystem, git subprocesses, the
PubGrub solver itself, zstd/tar) are modelled as explicit parameters or
as abstract event traces; everything the claims quantify over is embedded
from the source.
-/

namespace Gust

/-! ## Semver versions

The `semver` crate's `Version` consists of major/minor/patch numbers, a
pre-release identifier list and build metadata.  A pre-release identifier
is either numeric or alphanumeric; numeric identifiers compare as numbers
and are lower precedence than alphanumeric ones, which compare as ASCII
strings.  A version with a non-empty pre-release list has lower precedence
than the same triple without one.  Build metadata is omitted here: no
operation modelled in this file inspects it and it does not affect semver
precedence.  `Lex (Nat ⊕ String)` gives exactly the identifier order. -/

/-- Pre-release identifier: numeric identifiers order before (less than)
alphanumeric ones, mirroring semver precedence. -/
abbrev PreId := Lex (Nat ⊕ String)

/-- Semantic version `(major, minor, patch, pre)` as used by the resolver
(`gust_types::Version`, i.e. `semver::Version` without build metadata). -/
structure Version where
  major : Nat
  minor : Nat
  patch : Nat
  pre : List PreId
  deriving DecidableEq

/-- Order key for versions: the pre-release component maps the empty list
to `⊤` (a release is greater than any of its pre-releases) and otherwise
compares pre-release lists lexicographically, as semver prescribes. -/
def Version.preKey (p : List PreId) : WithTop (List PreId) :=
  if p.isEmpty then ⊤ else (p : WithTop (List PreId))

theorem Version.preKey_inj : Function.Injective Version.preKey := by
  intro p q h
  unfold Version.preKey at h
  split at h <;> split at h <;> simp_all [List.isEmpty_iff]

/-- Key of a version in the lexicographic product ordering semver
precedence. -/
def Version.key (v : Version) :
    Lex (Nat × Lex (Nat × Lex (Nat × WithTop (List PreId)))) :=
  toLex (v.major, toLex (v.minor, toLex (v.patch, Version.preKey v.pre)))

theorem Version.key_inj : Function.Injective Version.key := by
  intro a b h
  rcases a with ⟨a1, a2, a3, a4⟩
  rcases b with ⟨b1, b2, b3, b4⟩
  simp only [Version.key, toLex_inj, Prod.mk.injEq] at h
  obtain ⟨h1, h2, h3, h4⟩ := h
  exact Version.mk.injEq .. ▸ ⟨h1, h2, h3, Version.preKey_inj h4⟩

/-- Semver precedence as a linear order on versions, pulled back along the
injective key. -/
instance : LinearOrder Version := LinearOrder.lift' Version.key Version.key_inj

/-- Release version with no pre-release component. -/
def Version.new (major minor patch : Nat) : Version := ⟨major, minor, patch, []⟩

/-! ## Rust iterator max/min

`Iterator::max` returns `None` on an empty iterator and otherwise the
maximum element, keeping the last one among equals; `Iterator::min` keeps
the first one among equals.  `choose_version` applies them to candidate
version lists. -/

/-- Running maximum of a list seeded with `m`; ties keep the later
element, as Rust's `Iterator::max` does. -/
def rustMaxAux {α : Type} [LinearOrder α] (m : α) : List α → α
  | [] => m
  | v :: rest => rustMaxAux (if m ≤ v then v else m) rest

/-- Model of Rust's `Iterator::max` on a vector of versions. -/
def rustMax {α : Type} [LinearOrder α] : List α → Option α
  | [] => none
  | a :: as => some (rustMaxAux a as)

/-- Running minimum of a list seeded with `m`; ties keep the earlier
element, as Rust's `Iterator::min` does. -/
def rustMinAux {α : Type} [LinearOrder α] (m : α) : List α → α
  | [] => m
  | v :: rest => rustMinAux (if v < m then v else m) rest

/-- Model of Rust's `Iterator::min` on a vector of versions. -/
def rustMin {α : Type} [LinearOrder α] : List α → Option α
  | [] => none
  | a :: as => some (rustMinAux a as)

theorem rustMaxAux_mem {α : Type} [LinearOrder α] (m : α) (l : List α) :
    rustMaxAux m l = m ∨ rustMaxAux m l ∈ l := by
  induction l generalizing m with
  | nil => left; rfl
  | cons v rest ih =>
    simp only [rustMaxAux]
    rcases ih (if m ≤ v then v else m) with h | h
    · rw [h]
      split
      · right; exact List.mem_cons_self ..
      · left; rfl
    · right; exact List.mem_cons_of_mem _ h

theorem le_rustMaxAux {α : Type} [LinearOrder α] (m : α) (l : List α) :
    m ≤ rustMaxAux m l ∧ ∀ w ∈ l, w ≤ rustMaxAux m l := by
  induction l generalizing m with
  | nil => exact ⟨le_refl m, by simp⟩
  | cons v rest ih =>
    obtain ⟨h1, h2⟩ := ih (if m ≤ v then v else m)
    constructor
    · refine le_trans ?_ h1
      split <;> simp_all
    · intro w hw
      rcases List.mem_cons.mp hw with rfl | hw
      · refine le_trans ?_ h1
        split
        · exact le_refl w
        · exact le_of_not_le (by assumption)
      · exact h2 w hw

theorem rustMax_mem {α : Type} [LinearOrder α] {l : List α} {v : α}
    (h : rustMax l = some v) : v ∈ l := by
  cases l with
  | nil => simp [rustMax] at h
  | cons a as =>
    simp only [rustMax, Option.some.injEq] at h
    rcases rustMaxAux_mem a as with h' | h'
    · rw [← h, h']; exact List.mem_cons_self ..
    · rw [← h]; exact List.mem_cons_of_mem _ h'

theorem rustMax_ge {α : Type} [LinearOrder α] {l : List α} {v : α}
    (h : rustMax l = some v) : ∀ w ∈ l, w ≤ v := by
  cases l with
  | nil => simp [rustMax] at h
  | cons a as =>
    simp only [rustMax, Option.some.injEq] at h
    intro w hw
    obtain ⟨h1, h2⟩ := le_rustMaxAux a as
    rcases List.mem_cons.mp hw with rfl | hw
    · rw [← h]; exact h1
    · rw [← h]; exact h2 w hw

theorem rustMax_isSome {α : Type} [LinearOrder α] {l : List α}
    (h : l ≠ []) : ∃ v, rustMax l = some v := by
  cases l with
  | nil => exact absurd rfl h
  | cons a as => exact ⟨rustMaxAux a as, rfl⟩

/-! ## Version requirements

A `VersionReq` is consumed only through `VersionReq::matches`, so it is
embedded as its matching predicate.  Concrete requirements built by
`VersionReq::parse` are modelled after the `semver` crate's comparator
semantics: a bare `MAJOR.MINOR` or `MAJOR.MINOR.PATCH` comparator is a
caret requirement, and a comparator without a pre-release part matches no
pre-release version. -/

/-- Matching predicate of a version requirement (`semver::VersionReq`,
consumed only via `matches`). -/
def VersionReq : Type := Version → Bool

/-- Upper bound of a caret requirement on `major.minor.patch`: the next
breaking version per the semver crate (`2.0.0 → <3.0.0`,
`0.2.1 → <0.3.0`, `0.0.3 → <0.0.4`). -/
def caretUpper (major minor patch : Nat) : Version :=
  if major ≠ 0 then Version.new (major + 1) 0 0
  else if minor ≠ 0 then Version.new 0 (minor + 1) 0
  else Version.new 0 0 (patch + 1)

/-- Caret requirement `^MAJOR.MINOR` (also what `MAJOR.MINOR` parses to),
modelled from the semver crate: at least `MAJOR.MINOR.0`, below the next
breaking version, and never a pre-release. -/
def caretMM (major minor : Nat) : VersionReq := fun v =>
  v.pre.isEmpty && decide (Version.new major minor 0 ≤ v)
    && decide (v < caretUpper major minor 0)

/-- Caret requirement `^MAJOR.MINOR.PATCH` (also what a bare
`MAJOR.MINOR.PATCH` such as the override string `"2.0.0"` parses to). -/
def caretMMP (major minor patch : Nat) : VersionReq := fun v =>
  v.pre.isEmpty && decide (Version.new major minor patch ≤ v)
    && decide (v < caretUpper major minor patch)

/-- Exact requirement `=MAJOR.MINOR.PATCH`. -/
def exactReq (w : Version) : VersionReq := fun v => v == w

/-! ## The resolver's version-set algebra

`GustVersionSet` from `crates/gust-resolver/src/provider.rs`: an optional
requirement, a list of explicitly included versions (only populated by
`exact`) and a negation flag.  The `req` field is the requirement's
matching predicate. -/

/-- Version set for Gust packages (`GustVersionSet` in
`gust-resolver/src/provider.rs`). -/
structure GustVersionSet where
  req : Option VersionReq
  included : List Version
  negated : Bool

/-- Create a set that matches any version (`GustVersionSet::any`). -/
def GustVersionSet.any : GustVersionSet := ⟨none, [], false⟩

/-- Create a set from a version requirement (`GustVersionSet::from_req`). -/
def GustVersionSet.fromReq (r : VersionReq) : GustVersionSet := ⟨some r, [], false⟩

/-- Create a set that matches exactly one version (`GustVersionSet::exact`,
which parses `"=v"` into the requirement). -/
def GustVersionSet.exact (v : Version) : GustVersionSet := ⟨some (exactReq v), [v], false⟩

/-- Create an empty set (`GustVersionSet::empty`). -/
def GustVersionSet.empty : GustVersionSet := ⟨none, [], true⟩

/-- Complement per the `VersionSet` impl: flip the `negated` flag, keep the
requirement and inclusion list. -/
def GustVersionSet.complement (s : GustVersionSet) : GustVersionSet :=
  ⟨s.req, s.included, !s.negated⟩

/-- Intersection per the `VersionSet` impl: after the empty- and full-set
special cases, the implementation keeps one of the two operands (the
source comments "for simplicity, keep self's requirement"). -/
def GustVersionSet.intersection (s o : GustVersionSet) : GustVersionSet :=
  if s.negated && s.req.isNone && s.included.isEmpty then s
  else if o.negated && o.req.isNone && o.included.isEmpty then o
  else if !s.negated && s.req.isNone then o
  else if !o.negated && o.req.isNone then s
  else if !s.negated && !o.negated then s
  else if s.negated then o
  else s

/-- Membership test (`GustVersionSet::contains`): evaluate the requirement
(absent means "matches") and apply the negation flag. -/
def GustVersionSet.contains (s : GustVersionSet) (v : Version) : Bool :=
  let m := match s.req with
    | some r => r v
    | none => true
  if s.negated then !m else m

/-- Union per the `VersionSet` impl: full/empty special cases, then the
conservative answer `any`. -/
def GustVersionSet.union (s o : GustVersionSet) : GustVersionSet :=
  if !s.negated && s.req.isNone then s
  else if !o.negated && o.req.isNone then o
  else if s.negated && s.req.isNone && s.included.isEmpty then o
  else if o.negated && o.req.isNone && o.included.isEmpty then s
  else GustVersionSet.any

/-- Claim C1, first part, at a concrete input: the intersection of the set
`^1.4` with its complement still contains `1.5.0`, so
`A ∩ complement(A) ⊆ empty` fails, and since the complement does not
contain `1.5.0`, membership in an intersection does not imply membership
in both operands.  This refutes C1 as stated. -/
theorem intersection_unsound_at_caret14 :
    ((GustVersionSet.fromReq (caretMM 1 4)).intersection
        (GustVersionSet.fromReq (caretMM 1 4)).complement).contains (Version.new 1 5 0) = true
      ∧ (GustVersionSet.fromReq (caretMM 1 4)).complement.contains (Version.new 1 5 0) = false := by
  constructor
  · decide
  · decide

/-- Claim C1 (amended): `intersection` always returns one of its two
operands, so a version contained in `A.intersection(B)` is contained in
`A` or in `B` (but, as the counterexample shows, not necessarily in
both), and `contains` itself is exact with respect to the stored
requirement. -/
theorem intersection_returns_operand (A B : GustVersionSet) (v : Version)
    (h : (A.intersection B).contains v = true) :
    A.contains v = true ∨ B.contains v = true := by
  have hAB : A.intersection B = A ∨ A.intersection B = B := by
    unfold GustVersionSet.intersection
    split
    · exact Or.inl rfl
    · split
      · exact Or.inr rfl
      · split
        · exact Or.inr rfl
        · split
          · exact Or.inl rfl
          · split
            · exact Or.inl rfl
            · split
              · exact Or.inr rfl
              · exact Or.inl rfl
  rcases hAB with hA | hB
  · exact Or.inl (hA ▸ h)
  · exact Or.inr (hB ▸ h)

/-- Witness for the amended C1 theorem at the concrete counterexample
input. -/
theorem intersection_returns_operand_witness :
    (GustVersionSet.fromReq (caretMM 1 4)).contains (Version.new 1 5 0) = true
      ∨ (GustVersionSet.fromReq (caretMM 1 4)).complement.contains (Version.new 1 5 0) = true :=
  intersection_returns_operand (GustVersionSet.fromReq (caretMM 1 4))
    (GustVersionSet.fromReq (caretMM 1 4)).complement (Version.new 1 5 0) (by decide)

/-! ## The version choice policy

`GustDependencyProvider::choose_version` for a `Named` package.  The
provider state consulted for one package `p` is: the cached
`available_versions(p)`, the parsed override requirement `overrides[p]`,
the lockfile hint `hints.preferred_version(p)` and the resolution
strategy.  The chosen reason, which the source records into the
`ResolutionTrace` via `record_choice`, is returned alongside the
version. -/

/-- Resolution strategy (`gust_types::ResolutionStrategy`). -/
inductive ResolutionStrategy where
  | Highest
  | Lowest
  | Locked
  deriving DecidableEq

/-- Reason a version was selected (`gust_resolver::hints::ChoiceReason`). -/
inductive ChoiceReason where
  | LockedHint
  | HighestCompatible
  | LowestCompatible
  | Override
  | OnlyOption
  deriving DecidableEq

/-- Provider state consulted by `choose_version` for one named package:
`versions` is `available_versions(p)`, `overrideReq` is `overrides.get(p)`,
`hint` is `hints.preferred_version(p)`. -/
structure ChooseEnv where
  versions : List Version
  overrideReq : Option VersionReq
  hint : Option Version
  strategy : ResolutionStrategy

/-- Strategy step of `choose_version`: `Highest` and `Locked` take the
iterator maximum of the candidates, `Lowest` the minimum, with the
corresponding trace reason (`Locked` records `HighestCompatible`). -/
def chooseByStrategy (strategy : ResolutionStrategy) (matching : List Version) :
    Option (Version × ChoiceReason) :=
  match strategy with
  | .Highest => (rustMax matching).map (fun v => (v, ChoiceReason.HighestCompatible))
  | .Lowest => (rustMin matching).map (fun v => (v, ChoiceReason.LowestCompatible))
  | .Locked => (rustMax matching).map (fun v => (v, ChoiceReason.HighestCompatible))

/-- Hint-and-strategy tail of `choose_version`, reached when there is no
override or the override matched no available version: filter the
available versions by the asserted range, return the lockfile hint when it
is in the candidate set, otherwise apply the strategy. -/
def chooseRest (env : ChooseEnv) (range : GustVersionSet) :
    Option (Version × ChoiceReason) :=
  let matching := env.versions.filter (fun v => range.contains v)
  match env.hint with
  | some locked =>
    if matching.contains locked then some (locked, ChoiceReason.LockedHint)
    else chooseByStrategy env.strategy matching
  | none => chooseByStrategy env.strategy matching

/-- Model of `GustDependencyProvider::choose_version` for a `Named`
package: when an override requirement is configured, take the iterator
maximum of the available versions matching it (ignoring the asserted
range) with reason `Override`; when no available version matches the
override, and in the no-override case, fall through to the
hint-and-strategy path. -/
def chooseVersion (env : ChooseEnv) (range : GustVersionSet) :
    Option (Version × ChoiceReason) :=
  match env.overrideReq with
  | some oreq =>
    match rustMax (env.versions.filter oreq) with
    | some version => some (version, ChoiceReason.Override)
    | none => chooseRest env range
  | none => chooseRest env range

/-- Predicate: the override step of `choose_version` does not fire, either
because no override is configured or because no available version matches
it. -/
def overrideMisses (env : ChooseEnv) : Prop :=
  env.overrideReq = none
    ∨ ∃ oreq, env.overrideReq = some oreq ∧ env.versions.filter oreq = []

/-- Environment of the concrete C2 scenario: available versions
`{1.4.0, 1.5.4, 2.0.0}`, override `"2.0.0"` (a caret requirement), no
hint, strategy `Highest`. -/
def exampleEnvC2 : ChooseEnv :=
  ⟨[Version.new 1 4 0, Version.new 1 5 4, Version.new 2 0 0],
    some (caretMMP 2 0 0), none, ResolutionStrategy.Highest⟩

/-- Claim C2: `choose_version` follows the specified policy.  (1) When an
override requirement is configured and matched by some available version,
the result is the maximum available version satisfying the override, with
reason `Override`.  (2) When the override step misses and the lockfile
hint is in the candidate set (available versions within the asserted
range), the result is exactly the hinted version with reason
`LockedHint`.  (3) When both miss and the strategy is `Highest`, the
result is the maximum of the candidate set with reason
`HighestCompatible`.  (4) In the concrete scenario of the claim — versions
`{1.4.0, 1.5.4, 2.0.0}`, manifest requirement `^1.4`, override `"2.0.0"` —
the choice is `2.0.0` with reason `Override`. -/
theorem choose_version_policy (env : ChooseEnv) (range : GustVersionSet) :
    (∀ oreq, env.overrideReq = some oreq → env.versions.filter oreq ≠ [] →
      ∃ v, chooseVersion env range = some (v, ChoiceReason.Override)
        ∧ v ∈ env.versions ∧ oreq v = true
        ∧ ∀ w ∈ env.versions, oreq w = true → w ≤ v)
    ∧ (overrideMisses env →
      ∀ h, env.hint = some h →
        h ∈ env.versions.filter (fun v => range.contains v) →
        chooseVersion env range = some (h, ChoiceReason.LockedHint))
    ∧ (overrideMisses env →
      (∀ h, env.hint = some h →
        h ∉ env.versions.filter (fun v => range.contains v)) →
      env.strategy = ResolutionStrategy.Highest →
      env.versions.filter (fun v => range.contains v) ≠ [] →
      ∃ v, chooseVersion env range = some (v, ChoiceReason.HighestCompatible)
        ∧ v ∈ env.versions.filter (fun w => range.contains w)
        ∧ ∀ w ∈ env.versions.filter (fun w => range.contains w), w ≤ v)
    ∧ chooseVersion exampleEnvC2 (GustVersionSet.fromReq (caretMM 1 4))
        = some (Version.new 2 0 0, ChoiceReason.Override) := by
  refine ⟨?_, ?_, ?_, by decide⟩
  · intro oreq hov hne
    obtain ⟨v, hv⟩ := rustMax_isSome hne
    refine ⟨v, ?_, ?_, ?_, ?_⟩
    · simp only [chooseVersion, hov, hv]
    · exact List.mem_of_mem_filter (rustMax_mem hv)
    · exact List.of_mem_filter (rustMax_mem hv)
    · intro w hw hwm
      exact rustMax_ge hv w (List.mem_filter.mpr ⟨hw, hwm⟩)
  · intro hmiss h hh hmem
    have hrest : chooseVersion env range = chooseRest env range := by
      rcases hmiss with hnone | ⟨oreq, hov, hflt⟩
      · simp only [chooseVersion, hnone]
      · simp only [chooseVersion, hov, hflt, rustMax]
    rw [hrest]
    simp only [chooseRest, hh]
    rw [if_pos (List.elem_eq_true_of_mem hmem)]
  · intro hmiss hhint hstrat hne
    have hrest : chooseVersion env range = chooseRest env range := by
      rcases hmiss with hnone | ⟨oreq, hov, hflt⟩
      · simp only [chooseVersion, hnone]
      · simp only [chooseVersion, hov, hflt, rustMax]
    obtain ⟨v, hv⟩ := rustMax_isSome hne
    have hstratv : chooseByStrategy env.strategy
        (env.versions.filter (fun v => range.contains v))
        = some (v, ChoiceReason.HighestCompatible) := by
      rw [hstrat]
      simp only [chooseByStrategy, hv, Option.map_some']
    refine ⟨v, ?_, rustMax_mem hv, fun w hw => rustMax_ge hv w hw⟩
    rw [hrest]
    cases hcase : env.hint with
    | none =>
      simp only [chooseRest, hcase]
      exact hstratv
    | some locked =>
      have hnc : ¬ (env.versions.filter (fun v => range.contains v)).contains locked = true := by
        intro hc
        exact hhint locked hcase (List.mem_of_elem_eq_true hc)
      simp only [chooseRest, hcase]
      rw [if_neg hnc]
      exact hstratv

/-- Witness for C2 at the claim's concrete scenario, applying the override
clause of the policy theorem with all hypotheses discharged by
computation. -/
theorem choose_version_policy_witness :
    ∃ v, chooseVersion exampleEnvC2 (GustVersionSet.fromReq (caretMM 1 4))
        = some (v, ChoiceReason.Override)
      ∧ v ∈ exampleEnvC2.versions ∧ caretMMP 2 0 0 v = true
      ∧ ∀ w ∈ exampleEnvC2.versions, caretMMP 2 0 0 w = true → w ≤ v :=
  (choose_version_policy exampleEnvC2 (GustVersionSet.fromReq (caretMM 1 4))).1
    (caretMMP 2 0 0) rfl (by decide)

/-! ## The content-addressed global store

`GlobalCache` from `crates/gust-cache/src/lib.rs`.  BLAKE3 is an external
library; it enters as an explicit hash-function parameter
`h : Bytes → String` standing for `GlobalCache::hash_bytes` (and for
`hash_file`, which streams the same bytes).  The `files` directory is a
finite map from `(prefix, hash)` path pairs to file contents.
`content_path` slices the first two bytes of the hash string
(`&hash[..2]`), which panics in Rust when the hash is shorter; the panic
is modelled as `none`.  Hash strings produced by BLAKE3 are 64 ASCII hex
characters, so byte length and character length coincide. -/

/-- Byte string, each element one byte value. -/
abbrev Bytes := List Nat

/-- Contents of the store's content-addressed `files` directory: a finite
map from `(prefix, hash)` — the two path components below `files/` — to
the stored file's bytes. -/
structure StoreState where
  files : List ((String × String) × Bytes)

/-- Path components computed by `GlobalCache::content_path`: the first two
characters of the hash, then the full hash.  `none` models the panic of
the slice `&hash[..2]` on a hash shorter than two characters. -/
def contentPathKey (hash : String) : Option (String × String) :=
  if 2 ≤ hash.length then some (hash.take 2, hash) else none

/-- Contents of the file stored at a `(prefix, hash)` path, if present
(`dest.exists()` and reading it back). -/
def storeLookup (σ : StoreState) (k : String × String) : Option Bytes :=
  (σ.files.find? (fun e => e.1 == k)).map (fun e => e.2)

/-- Model of `GlobalCache::store_bytes`: hash the data, and unless the
content path already exists, create the file with exactly those bytes;
return the hash either way. -/
def storeBytes (h : Bytes → String) (σ : StoreState) (data : Bytes) :
    Option (String × StoreState) :=
  let hash := h data
  match contentPathKey hash with
  | none => none
  | some k =>
    if (storeLookup σ k).isSome then some (hash, σ)
    else some (hash, ⟨(k, data) :: σ.files⟩)

/-- Model of `GlobalCache::store_file`: hash the source file's contents
(`hash_file`), and unless the content path already exists, copy those
bytes there (`fs::copy`); return the hash either way. -/
def storeFile (h : Bytes → String) (σ : StoreState) (srcContents : Bytes) :
    Option (String × StoreState) :=
  let hash := h srcContents
  match contentPathKey hash with
  | none => none
  | some k =>
    if (storeLookup σ k).isSome then some (hash, σ)
    else some (hash, ⟨(k, srcContents) :: σ.files⟩)

/-- Claim C3: starting from a store in which every entry's contents hash
to its key, `store_bytes(data)` (and `store_file` on a source with the
same contents) returns the hash `h data` of the data, afterwards the file
at `files/<first two chars>/<h data>` exists and its contents hash to
exactly that key, the key invariant holds of every entry of the resulting
store, and when the entry already existed the store is returned
unchanged. -/
theorem store_bytes_spec (h : Bytes → String) (σ : StoreState) (data : Bytes)
    (hlen : 2 ≤ (h data).length)
    (hinv : ∀ e ∈ σ.files, h e.2 = e.1.2) :
    ∃ σ', storeBytes h σ data = some (h data, σ')
      ∧ storeFile h σ data = some (h data, σ')
      ∧ (∃ c, storeLookup σ' ((h data).take 2, h data) = some c ∧ h c = h data)
      ∧ (∀ e ∈ σ'.files, h e.2 = e.1.2)
      ∧ ((storeLookup σ ((h data).take 2, h data)).isSome → σ' = σ) := by
  have hkey : contentPathKey (h data) = some ((h data).take 2, h data) := by
    unfold contentPathKey
    rw [if_pos hlen]
  by_cases hex : (storeLookup σ ((h data).take 2, h data)).isSome
  · refine ⟨σ, ?_, ?_, ?_, hinv, fun _ => rfl⟩
    · simp only [storeBytes, hkey, hex, if_true]
    · simp only [storeFile, hkey, hex, if_true]
    · obtain ⟨c, hc⟩ := Option.isSome_iff_exists.mp hex
      unfold storeLookup at hc
      obtain ⟨e, he, hec⟩ := Option.map_eq_some'.mp hc
      have hmem := List.mem_of_find?_eq_some he
      have hpred := List.find?_some he
      have hek : e.1 = ((h data).take 2, h data) := by
        exact eq_of_beq hpred
      refine ⟨c, hc, ?_⟩
      rw [← hec]
      rw [hinv e hmem, hek]
  · refine ⟨⟨(((h data).take 2, h data), data) :: σ.files⟩, ?_, ?_, ?_, ?_, ?_⟩
    · simp only [storeBytes, hkey, hex, Bool.false_eq_true, if_false]
    · simp only [storeFile, hkey, hex, Bool.false_eq_true, if_false]
    · refine ⟨data, ?_, rfl⟩
      unfold storeLookup List.find?
      rw [beq_self_eq_true]
      rfl
    · intro e he
      rcases List.mem_cons.mp he with rfl | he'
      · rfl
      · exact hinv e he'
    · intro hc
      exact absurd hc hex

/-- Witness for C3: a two-character hash function on the empty store. -/
theorem store_bytes_spec_witness :
    ∃ σ', storeBytes (fun _ => "aa") ⟨[]⟩ [1, 2, 3] = some ("aa", σ')
      ∧ storeFile (fun _ => "aa") ⟨[]⟩ [1, 2, 3] = some ("aa", σ')
      ∧ (∃ c, storeLookup σ' ("aa".take 2, "aa") = some c ∧ "aa" = "aa")
      ∧ (∀ e ∈ σ'.files, "aa" = e.1.2)
      ∧ ((storeLookup ⟨[]⟩ ("aa".take 2, "aa")).isSome → σ' = ⟨[]⟩) :=
  store_bytes_spec (fun _ => "aa") ⟨[]⟩ [1, 2, 3] (by decide) (by simp)

/-- Model of `GlobalCache::contains`: whether the content path of the
hash exists; `none` models the panic on a short hash. -/
def cacheContains (σ : StoreState) (hash : String) : Option Bool :=
  (contentPathKey hash).map (fun k => (storeLookup σ k).isSome)

/-- Model of `GlobalCache::get_path`: the content path when the file
exists, `some none` on a miss; outer `none` models the panic on a short
hash. -/
def cacheGetPath (σ : StoreState) (hash : String) : Option (Option (String × String)) :=
  (contentPathKey hash).map
    (fun k => if (storeLookup σ k).isSome then some k else none)

/-- Source path computed first by `GlobalCache::link_file` before any
filesystem operation; `none` models the panic on a short hash. -/
def cacheLinkFileSrc (hash : String) : Option (String × String) :=
  contentPathKey hash

/-- Claim C10: for every hash argument shorter than two characters, the
slice `&hash[..2]` inside `content_path` is out of bounds, so
`content_path`, `contains`, `get_path` and `link_file` all panic
(modelled by `none`) instead of returning `false`, a miss, or an error. -/
theorem short_hash_panics (σ : StoreState) (hash : String)
    (hshort : hash.length < 2) :
    contentPathKey hash = none ∧ cacheContains σ hash = none
      ∧ cacheGetPath σ hash = none ∧ cacheLinkFileSrc hash = none := by
  have hk : contentPathKey hash = none := by
    unfold contentPathKey
    rw [if_neg (by omega)]
  exact ⟨hk, by simp [cacheContains, hk], by simp [cacheGetPath, hk],
    by simp [cacheLinkFileSrc, hk]⟩

/-- Witness for C10 at the empty hash string on the empty store. -/
theorem short_hash_panics_witness :
    contentPathKey "" = none ∧ cacheContains ⟨[]⟩ "" = none
      ∧ cacheGetPath ⟨[]⟩ "" = none ∧ cacheLinkFileSrc "" = none :=
  short_hash_panics ⟨[]⟩ "" (by decide)

/-! ## The local binary artifact cache

`LocalBinaryCache::store` from `crates/gust-binary-cache/src/lib.rs`.
The tar-packing and zstd compression of the source directory are
performed in memory and enter the model as the resulting archive bytes
`compressed`.  What the claim is about is the write path, so `store` is
embedded as the sequence of filesystem operations it performs, and the
observable contents of the destination path during each operation give
the temporal semantics: a plain `fs::write` exposes every prefix of the
data while it is in progress, whereas a `rename` of a fully written file
is atomic and exposes only the final contents. -/

/-- Filesystem operation performed by the artifact cache write path. -/
inductive FsOp where
  | createDirAll (path : String)
  | writeFile (path : String) (data : Bytes)
  | rename (src dest : String) (data : Bytes)
  deriving DecidableEq

/-- Destination path `<cache-dir>/<fingerprint>.tar.zst`. -/
def binDest (cacheDir fingerprint : String) : String :=
  cacheDir ++ "/" ++ fingerprint ++ ".tar.zst"

/-- Model of `LocalBinaryCache::store`: ensure the cache directory, then
return `Ok` immediately when the destination exists, otherwise write the
compressed archive to the destination with a single `fs::write`.  The
second component is `true` for the `Ok(())` result. -/
def localStore (cacheDir fingerprint : String) (destExists : Bool)
    (compressed : Bytes) : List FsOp × Bool :=
  let dest := binDest cacheDir fingerprint
  if destExists then ([FsOp.createDirAll cacheDir], true)
  else ([FsOp.createDirAll cacheDir, FsOp.writeFile dest compressed], true)

/-- Observable contents of the file at `dest` at the intermediate steps of
one filesystem operation: an in-progress `fs::write` to `dest` exposes
every prefix of the data, a `rename` into `dest` atomically exposes only
the fully written data, and operations on other paths expose nothing. -/
def FsOp.destStates (op : FsOp) (dest : String) : List (Option Bytes) :=
  match op with
  | .createDirAll _ => []
  | .writeFile p data =>
    if p == dest then (List.range (data.length + 1)).map (fun k => some (data.take k))
    else []
  | .rename _ d data => if d == dest then [some data] else []

/-- Observable contents of `dest` across a sequence of filesystem
operations. -/
def opsDestStates (ops : List FsOp) (dest : String) : List (Option Bytes) :=
  (ops.map (fun op => op.destStates dest)).flatten

/-- Claim C4 is false on the code: storing a two-byte archive under a
fresh fingerprint makes the destination path observable holding only the
first byte — a partially written archive — because `store` writes the
destination directly with `fs::write` instead of renaming a fully written
temp file into place. -/
theorem local_store_partial_write_observable :
    (some ([1] : Bytes))
        ∈ opsDestStates (localStore "cache" "fp" false [1, 2]).1 (binDest "cache" "fp")
      ∧ some ([1] : Bytes) ≠ some ([1, 2] : Bytes)
      ∧ ∀ op ∈ (localStore "cache" "fp" false [1, 2]).1,
          ∀ s d b, op = FsOp.rename s d b → False := by
  refine ⟨by decide, by decide, ?_⟩
  intro op hop s d b heq
  simp only [localStore] at hop
  rcases List.mem_cons.mp hop with rfl | hop
  · exact FsOp.noConfusion heq
  rcases List.mem_cons.mp hop with rfl | hop
  · exact FsOp.noConfusion heq
  · exact absurd hop (List.not_mem_nil op)

/-- Claim C4 (amended): `store` returns success and, when the destination
already exists, performs no write to it (the no-op clause of the claim
holds); when the destination does not exist, it writes the archive
directly to the destination with a single `fs::write` — not by renaming a
fully written temp file — so the observable intermediate states of the
destination are exactly the prefixes of the final archive, and a reader
may observe a partially written archive. -/
theorem local_store_behavior (cacheDir fingerprint : String)
    (destExists : Bool) (compressed : Bytes) :
    (localStore cacheDir fingerprint destExists compressed).2 = true
    ∧ (destExists = true →
        (localStore cacheDir fingerprint destExists compressed).1
            = [FsOp.createDirAll cacheDir]
          ∧ opsDestStates (localStore cacheDir fingerprint destExists compressed).1
              (binDest cacheDir fingerprint) = [])
    ∧ (destExists = false →
        (localStore cacheDir fingerprint destExists compressed).1
            = [FsOp.createDirAll cacheDir,
                FsOp.writeFile (binDest cacheDir fingerprint) compressed]
          ∧ ∀ s ∈ opsDestStates (localStore cacheDir fingerprint destExists compressed).1
              (binDest cacheDir fingerprint),
              ∃ k, k ≤ compressed.length ∧ s = some (compressed.take k)) := by
  refine ⟨?_, ?_, ?_⟩
  · cases destExists <;> rfl
  · intro hex
    subst hex
    exact ⟨rfl, rfl⟩
  · intro hex
    subst hex
    refine ⟨rfl, ?_⟩
    intro s hs
    simp only [localStore, opsDestStates, List.map, FsOp.destStates,
      beq_self_eq_true, if_true, List.flatten_cons, List.flatten_nil,
      List.append_nil, List.nil_append] at hs
    obtain ⟨k, hk, hks⟩ := List.mem_map.mp hs
    have hk' : k < compressed.length + 1 := List.mem_range.mp hk
    exact ⟨k, by omega, hks.symm⟩

/-- Witness for the amended C4 theorem: the fresh-destination clause at a
concrete fingerprint and archive. -/
theorem local_store_behavior_witness :
    (localStore "cache" "fp" false [1, 2]).1
        = [FsOp.createDirAll "cache", FsOp.writeFile (binDest "cache" "fp") [1, 2]]
      ∧ ∀ s ∈ opsDestStates (localStore "cache" "fp" false [1, 2]).1 (binDest "cache" "fp"),
          ∃ k, k ≤ ([1, 2] : Bytes).length ∧ s = some (([1, 2] : Bytes).take k) :=
  (local_store_behavior "cache" "fp" false [1, 2]).2.2 rfl

/-! ## The fetcher

`Fetcher` from `crates/gust-fetch/src/lib.rs`.  A `Dependency` (from
`crates/gust-types`) selects its source kind from its fields: a set local
path means `Path`, else a set git URL means `Git`, else `Registry`.  The
git and path fetch bodies run subprocesses and touch the filesystem; they
enter the model as effect parameters.  `fetch_registry_static` (and the
identical `fetch_registry`) is fully embedded.  `fetch_many` builds one
task per input pair in input order and awaits them with
`futures::future::join_all`, which returns the task outputs in input
order; the semaphore bounds how many bodies run at once and the mutex
serialises the progress callback, neither of which affects the returned
vector, so they are not part of the model. -/

/-- Source kind of a dependency (`gust_types::DependencySource`). -/
inductive DependencySource where
  | Registry
  | Git
  | Path
  deriving DecidableEq

/-- Dependency specification (`gust_types::Dependency`); the version
requirement is carried as its matching predicate. -/
structure Dependency where
  name : String
  version : Option VersionReq
  git : Option String
  branch : Option String
  tag : Option String
  revision : Option String
  path : Option String
  features : List String
  optional : Bool

/-- Registry dependency constructor (`Dependency::registry`). -/
def Dependency.registry (name : String) (version : VersionReq) : Dependency :=
  ⟨name, some version, none, none, none, none, none, [], false⟩

/-- Source kind selection (`Dependency::source_kind`): a set `path` wins,
then a set `git`, else `Registry`. -/
def Dependency.sourceKind (d : Dependency) : DependencySource :=
  if d.path.isSome then DependencySource.Path
  else if d.git.isSome then DependencySource.Git
  else DependencySource.Registry

/-- Result of fetching one package (`gust_fetch::FetchResult`). -/
structure FetchResult where
  name : String
  path : String
  checksum : String
  revision : Option String

/-- Fetch error (`gust_fetch::FetchError`). -/
inductive FetchError where
  | FetchFailed (package message : String)
  | GitError (message : String)
  | NetworkError (message : String)
  | IoError (message : String)
  deriving DecidableEq

/-- External effects of the git and path fetch bodies (`fetch_git_static`
runs `git clone` and hashes the checkout; `fetch_path_static` creates a
symlink and hashes the source tree). -/
structure FetchEffects where
  gitFetch : Dependency → String → Except FetchError FetchResult
  pathFetch : Dependency → String → Except FetchError FetchResult

/-- Model of `Fetcher::fetch_registry_static` (and of the identical
`fetch_registry`): always the `FetchFailed` error stating that registry
fetching is not implemented. -/
def fetchRegistryStatic (dep : Dependency) (_dest : String) :
    Except FetchError FetchResult :=
  Except.error (FetchError.FetchFailed dep.name "Registry fetching not implemented")

/-- Dispatch on the source kind, the shared body of `Fetcher::fetch` and
of each task of `fetch_many`. -/
def fetchOne (fx : FetchEffects) (dep : Dependency) (dest : String) :
    Except FetchError FetchResult :=
  match dep.sourceKind with
  | DependencySource.Git => fx.gitFetch dep dest
  | DependencySource.Registry => fetchRegistryStatic dep dest
  | DependencySource.Path => fx.pathFetch dep dest

/-- Model of `Fetcher::fetch_many`: one task per input pair, in input
order, each task's slot holding its own result. -/
def fetchMany (fx : FetchEffects) (deps : List (Dependency × String)) :
    List (Except FetchError FetchResult) :=
  deps.map (fun p => fetchOne fx p.1 p.2)

/-- Claim C5: `fetch_many` returns a vector of the same length as its
input whose `i`-th element is the result of fetching the `i`-th input
pair, for every choice of per-task outcomes; a failing task therefore
occupies only its own slot, the other slots are a function of their own
input pair alone, and the call itself returns the mixed vector normally
rather than aborting. -/
theorem fetch_many_slots (fx : FetchEffects) (deps : List (Dependency × String)) :
    (fetchMany fx deps).length = deps.length
      ∧ ∀ i : Nat, (fetchMany fx deps)[i]? = (deps[i]?).map (fun p => fetchOne fx p.1 p.2) := by
  constructor
  · exact List.length_map ..
  · intro i
    exact List.getElem?_map ..

/-- Claim C7: fetching a dependency whose source kind is `Registry` (no
git URL and no local path set), whether through `Fetcher::fetch` or
through any slot of `fetch_many`, always produces the `FetchFailed` error
whose message states that registry fetching is not implemented, for every
effect environment; a registry fetch never succeeds. -/
theorem registry_fetch_always_fails (fx : FetchEffects) (dep : Dependency)
    (dest : String) (hreg : dep.sourceKind = DependencySource.Registry) :
    fetchOne fx dep dest
        = Except.error (FetchError.FetchFailed dep.name "Registry fetching not implemented")
      ∧ (∀ deps : List (Dependency × String), ∀ i : Nat, deps[i]? = some (dep, dest) →
          (fetchMany fx deps)[i]?
            = some (Except.error
                (FetchError.FetchFailed dep.name "Registry fetching not implemented")))
      ∧ ∀ r, fetchOne fx dep dest ≠ Except.ok r := by
  have hone : fetchOne fx dep dest
      = Except.error (FetchError.FetchFailed dep.name "Registry fetching not implemented") := by
    simp only [fetchOne, hreg]
    rfl
  refine ⟨hone, ?_, ?_⟩
  · intro deps i hi
    rw [(fetch_many_slots fx deps).2 i, hi, Option.map_some', hone]
  · intro r hr
    rw [hone] at hr
    exact Except.noConfusion hr

/-- Witness for C7: a plain registry dependency, fetched under effect
environments that would succeed for git and path sources. -/
theorem registry_fetch_always_fails_witness :
    fetchOne
        ⟨fun d p => Except.ok ⟨d.name, p, "", none⟩, fun d p => Except.ok ⟨d.name, p, "", none⟩⟩
        (Dependency.registry "pkg" (caretMM 1 0)) "dest"
      = Except.error (FetchError.FetchFailed "pkg" "Registry fetching not implemented") :=
  (registry_fetch_always_fails
    ⟨fun d p => Except.ok ⟨d.name, p, "", none⟩, fun d p => Except.ok ⟨d.name, p, "", none⟩⟩
    (Dependency.registry "pkg" (caretMM 1 0)) "dest" rfl).1

/-! ## The resolver's solution post-processing

`Resolver::resolve` from `crates/gust-resolver/src/lib.rs`.  The PubGrub
run itself is external to this claim; its output is a solution map of
packages to chosen versions, over which `resolve` folds to build the
`Resolution`.  The per-package dependency lists and trace metadata come
from the provider and the trace, modelled as functions.  The maps inside
`Resolution` are built by `HashMap::insert`, modelled as prepending (a
later entry for the same key shadows an earlier one under `find?`
lookup). -/

/-- Package identifier for resolution
(`gust_resolver::package::GustPackage`). -/
inductive GustPackage where
  | Root
  | Named (name : String)
  deriving DecidableEq

/-- Resolved source of a package (`gust_resolver::ResolvedSource`). -/
inductive ResolvedSource where
  | Registry
  | Git (url revision : String) (tag : Option String)
  | Path (path : String)
  deriving DecidableEq

/-- A single resolved dependency (`gust_resolver::ResolvedDep`). -/
structure ResolvedDep where
  name : String
  version : Version
  source : ResolvedSource
  dependencies : List String
  deriving DecidableEq

/-- A resolved dependency graph (`gust_resolver::Resolution`): package
map and per-package `required_by` metadata. -/
structure Resolution where
  packages : List (String × ResolvedDep)
  metadata : List (String × List String)
  deriving DecidableEq

/-- Insertion step of the fold in `Resolver::resolve` over the PubGrub
solution: `Root` entries are skipped, and each `Named(name)` entry
inserts a `ResolvedDep` whose source is always `ResolvedSource::Registry`
(the source carries a TODO to determine the actual source) and whose
dependency names come from the provider. -/
def resolveStep (providerDeps : String → Version → List String)
    (requiredBy : String → List String)
    (res : Resolution) (pv : GustPackage × Version) : Resolution :=
  match pv.1 with
  | GustPackage.Root => res
  | GustPackage.Named name =>
    ⟨(name, ⟨name, pv.2, ResolvedSource.Registry, providerDeps name pv.2⟩)
        :: res.packages,
      (name, requiredBy name) :: res.metadata⟩

/-- Conversion of a PubGrub solution into a `Resolution`, the success
path of `Resolver::resolve`. -/
def resolveFromSolution (providerDeps : String → Version → List String)
    (requiredBy : String → List String)
    (solution : List (GustPackage × Version)) : Resolution :=
  solution.foldl (resolveStep providerDeps requiredBy) ⟨[], []⟩

theorem resolveStep_packages_mem (pd : String → Version → List String)
    (rb : String → List String) :
    ∀ (sol : List (GustPackage × Version)) (acc : Resolution)
      (e : String × ResolvedDep),
      e ∈ (sol.foldl (resolveStep pd rb) acc).packages →
      e ∈ acc.packages
        ∨ ∃ pv ∈ sol, ∃ name, pv.1 = GustPackage.Named name
            ∧ e = (name, ⟨name, pv.2, ResolvedSource.Registry, pd name pv.2⟩) := by
  intro sol
  induction sol with
  | nil => intro acc e he; exact Or.inl he
  | cons pv rest ih =>
    intro acc e he
    rw [List.foldl_cons] at he
    rcases ih (resolveStep pd rb acc pv) e he with hin | ⟨pv', hpv', name, hn, hee⟩
    · obtain ⟨p1, v⟩ := pv
      cases p1 with
      | Root => exact Or.inl hin
      | Named name =>
        have hin2 : e ∈ (name, (⟨name, v, ResolvedSource.Registry, pd name v⟩ : ResolvedDep))
            :: acc.packages := hin
        rcases List.mem_cons.mp hin2 with rfl | hin3
        · exact Or.inr ⟨(GustPackage.Named name, v), List.mem_cons_self .., name, rfl, rfl⟩
        · exact Or.inl hin3
    · exact Or.inr ⟨pv', List.mem_cons_of_mem _ hpv', name, hn, hee⟩

theorem resolveStep_filter_root (pd : String → Version → List String)
    (rb : String → List String) :
    ∀ (sol : List (GustPackage × Version)) (acc : Resolution),
      (sol.filter (fun pv => !(pv.1 == GustPackage.Root))).foldl (resolveStep pd rb) acc
        = sol.foldl (resolveStep pd rb) acc := by
  intro sol
  induction sol with
  | nil => intro acc; rfl
  | cons pv rest ih =>
    intro acc
    obtain ⟨p1, v⟩ := pv
    cases p1 with
    | Root => exact ih acc
    | Named name => exact ih (resolveStep pd rb acc (GustPackage.Named name, v))

/-- Claim C9: for every provider and every PubGrub solution, each
`ResolvedDep` in the `Resolution` built by `Resolver::resolve` has source
`Registry`; every package entry stems from a `Named` solution entry whose
name it carries, and the `Root` package contributes nothing (dropping all
`Root` entries from the solution leaves the `Resolution` unchanged), so
declared git or path source information is never propagated and `Root`
never appears in `Resolution.packages`. -/
theorem resolution_source_always_registry
    (providerDeps : String → Version → List String)
    (requiredBy : String → List String)
    (solution : List (GustPackage × Version)) :
    (∀ e ∈ (resolveFromSolution providerDeps requiredBy solution).packages,
        e.2.source = ResolvedSource.Registry ∧ e.2.name = e.1
          ∧ GustPackage.Named e.1 ∈ solution.map (fun pv => pv.1))
      ∧ resolveFromSolution providerDeps requiredBy
            (solution.filter (fun pv => !(pv.1 == GustPackage.Root)))
          = resolveFromSolution providerDeps requiredBy solution := by
  constructor
  · intro e he
    rcases resolveStep_packages_mem providerDeps requiredBy solution ⟨[], []⟩ e he with
      hnil | ⟨pv, hpv, name, hn, hee⟩
    · exact absurd hnil (List.not_mem_nil e)
    · subst hee
      exact ⟨rfl, rfl, by
        rw [← hn]
        exact List.mem_map_of_mem _ hpv⟩
  · exact resolveStep_filter_root providerDeps requiredBy solution ⟨[], []⟩

/-! ## The installer's iterative transitive-discovery resolve loop

`Installer::resolve` from `crates/gust/src/install.rs`.  The loop state
is the accumulated package map and the pending dependency list.  One loop
body execution — fetching the pending packages, parsing their manifests
and queueing the discovered transitive dependencies — is I/O and enters
the model as a `body` function on the state after the `retain` step; the
control flow around it (the iteration counter, the `MAX_ITERATIONS`
bound, the retain-and-break step, the warning and the `Ok` return of the
accumulated partial resolution) is embedded from the source.  The fuel
argument equals `MAX_ITERATIONS - iteration`, so the guard
`iteration < MAX_ITERATIONS` of the `while` is the fuel being
positive. -/

/-- Bound on the transitive-discovery iterations
(`const MAX_ITERATIONS: usize = 20`). -/
def MAX_ITERATIONS : Nat := 20

/-- State of the resolve loop: accumulated `packages` map and
`pending_deps` worklist. -/
structure LoopState where
  packages : List (String × ResolvedDep)
  pending : List (String × Dependency)

/-- Key membership in the accumulated package map
(`packages.contains_key`). -/
def containsKey (l : List (String × ResolvedDep)) (k : String) : Bool :=
  l.any (fun e => e.1 == k)

/-- The `while !pending_deps.is_empty() && iteration < MAX_ITERATIONS`
loop: increment the iteration counter, retain only unresolved pending
deps, break when that empties the worklist, otherwise run the loop body
and continue.  Returns the final iteration count and state. -/
def resolveGo (body : LoopState → LoopState) :
    Nat → Nat → LoopState → Nat × LoopState
  | 0, iteration, st => (iteration, st)
  | fuel + 1, iteration, st =>
    if st.pending.isEmpty then (iteration, st)
    else
      let it := iteration + 1
      let pending2 := st.pending.filter (fun p => !(containsKey st.packages p.1))
      if pending2.isEmpty then (it, ⟨st.packages, pending2⟩)
      else resolveGo body fuel it (body ⟨st.packages, pending2⟩)

/-- Model of `Installer::resolve`: the frozen-mode shortcut, then the
iterative loop from an empty package map and the manifest's direct
dependencies; on loop exit, a warning is emitted when the iteration
counter reached `MAX_ITERATIONS`, and the accumulated (possibly partial)
package map is returned as `Ok`.  The result carries the iteration
count, the packages and the warning flag. -/
def installerResolve (frozen : Bool)
    (lockRes : Option (List (String × ResolvedDep)))
    (body : LoopState → LoopState)
    (initPending : List (String × Dependency)) :
    Except String (Nat × List (String × ResolvedDep) × Bool) :=
  if frozen then
    match lockRes with
    | some r => Except.ok (0, r, false)
    | none => Except.error "No lockfile found but --frozen was specified"
  else
    let out := resolveGo body MAX_ITERATIONS 0 ⟨[], initPending⟩
    Except.ok (out.1, out.2.packages, decide (MAX_ITERATIONS ≤ out.1))

theorem resolveGo_iter_le (body : LoopState → LoopState) :
    ∀ (fuel iteration : Nat) (st : LoopState),
      (resolveGo body fuel iteration st).1 ≤ iteration + fuel := by
  intro fuel
  induction fuel with
  | zero => intro iteration st; simp [resolveGo]
  | succ fuel ih =>
    intro iteration st
    simp only [resolveGo]
    split
    · omega
    · split
      · simp only
        omega
      · have := ih (iteration + 1) (body ⟨st.packages,
          st.pending.filter (fun p => !(containsKey st.packages p.1))⟩)
        omega

/-- Claim C6: `MAX_ITERATIONS` is 20, and for every manifest (every
initial pending list) and every behaviour of the fetch-parse-discover
loop body, the resolve loop executes at most `MAX_ITERATIONS`
iterations and `Installer::resolve` terminates with an `Ok` partial
resolution — never an error — with the warning flag set exactly when the
iteration counter reached the bound. -/
theorem resolve_loop_bounded (body : LoopState → LoopState)
    (initPending : List (String × Dependency)) :
    MAX_ITERATIONS = 20
      ∧ (resolveGo body MAX_ITERATIONS 0 ⟨[], initPending⟩).1 ≤ MAX_ITERATIONS
      ∧ installerResolve false none body initPending
          = Except.ok ((resolveGo body MAX_ITERATIONS 0 ⟨[], initPending⟩).1,
              (resolveGo body MAX_ITERATIONS 0 ⟨[], initPending⟩).2.packages,
              decide ((resolveGo body MAX_ITERATIONS 0 ⟨[], initPending⟩).1
                = MAX_ITERATIONS)) := by
  have hle : (resolveGo body MAX_ITERATIONS 0 ⟨[], initPending⟩).1 ≤ MAX_ITERATIONS := by
    have := resolveGo_iter_le body MAX_ITERATIONS 0 ⟨[], initPending⟩
    omega
  refine ⟨rfl, hle, ?_⟩
  simp only [installerResolve, if_false, Bool.false_eq_true]
  have : decide (MAX_ITERATIONS ≤ (resolveGo body MAX_ITERATIONS 0 ⟨[], initPending⟩).1)
      = decide ((resolveGo body MAX_ITERATIONS 0 ⟨[], initPending⟩).1 = MAX_ITERATIONS) := by
    by_cases h : (resolveGo body MAX_ITERATIONS 0 ⟨[], initPending⟩).1 = MAX_ITERATIONS
    · rw [decide_eq_true (by omega), decide_eq_true h]
    · rw [decide_eq_false (by omega), decide_eq_false h]
  rw [this]


/-! ## Directory hashing

Two directory-hash implementations: `hash_sources` in
`crates/gust-binary-cache/src/lib.rs` and `compute_dir_hash` in
`crates/gust-fetch/src/lib.rs`.  A directory is a finite tree of named
entries.  Both walk the tree collecting `(relative-path, contents)`
pairs — `hash_sources` skipping dotfiles and `Package.resolved` and
keeping only source-extension files, `compute_dir_hash` skipping only
`.git` — hash each file's contents, collect into a `BTreeMap` (iterated
in ascending key order; Rust's `String` order is byte-lexicographic,
which agrees with Lean's `String` order on UTF-8), and hash a combined
serialization.  `hash_sources` feeds `<path>`, `":"`, `<hash>`, `"\n"`
per entry into the hasher; `compute_dir_hash` joins `<path>:<hash>`
entries with a `"\n"` separator (no trailing newline).  BLAKE3 is the
parameter `h`. -/

/-- Directory tree entry: a regular file with contents, or a directory
with named children. -/
inductive FsTree where
  | file (content : String)
  | dir (entries : List (String × FsTree))

/-- Source-file extensions accepted by `hash_sources`. -/
def srcExts : List String := ["swift", "h", "c", "cpp", "m", "mm"]

/-- Extension of a file name per Rust's `Path::extension` (with the
source's `unwrap_or("")`): the portion after the final `.`, where a
single leading dot does not count as a separator. -/
def extOf (name : String) : String :=
  let core := if name.startsWith "." then name.drop 1 else name
  let parts := core.splitOn "."
  if parts.length ≤ 1 then "" else (parts.getLast?).getD ""

/-- Relative path of a child under a prefix, `/`-separated. -/
def joinRel (pfx name : String) : String :=
  if pfx = "" then name else pfx ++ "/" ++ name

/-- File collection of `hash_sources`: skip entries (files and
directories alike) whose name starts with a dot or is
`Package.resolved`, recurse into directories, and keep regular files
whose extension is a source extension, paired with their `/`-separated
relative path. -/
def collectSources (pfx : String) : List (String × FsTree) → List (String × String)
  | [] => []
  | (name, t) :: rest =>
    (if name.startsWith "." || name == "Package.resolved" then []
     else
       match t with
       | FsTree.dir children => collectSources (joinRel pfx name) children
       | FsTree.file content =>
         if srcExts.contains (extOf name) then [(joinRel pfx name, content)] else [])
    ++ collectSources pfx rest

/-- File collection of `compute_dir_hash`: skip entries named `.git`,
recurse into directories, and keep every other file, paired with its
`/`-separated relative path. -/
def collectAll (pfx : String) : List (String × FsTree) → List (String × String)
  | [] => []
  | (name, t) :: rest =>
    (if name == ".git" then []
     else
       match t with
       | FsTree.dir children => collectAll (joinRel pfx name) children
       | FsTree.file content => [(joinRel pfx name, content)])
    ++ collectAll pfx rest

/-- Decidability of the key order used to model `BTreeMap` iteration. -/
instance decRelKeyLe : DecidableRel (fun a b : String × String => a.1 ≤ b.1) :=
  fun a b => inferInstanceAs (Decidable (a.1 ≤ b.1))

instance keyLeTotal : IsTotal (String × String) (fun a b => a.1 ≤ b.1) :=
  ⟨fun a b => le_total a.1 b.1⟩

instance keyLeTrans : IsTrans (String × String) (fun a b => a.1 ≤ b.1) :=
  ⟨fun _ _ _ h1 h2 => le_trans h1 h2⟩

/-- Ascending-key iteration order of a `BTreeMap<String, String>` built
from the collected entries. -/
def sortByKey (l : List (String × String)) : List (String × String) :=
  List.insertionSort (fun a b => a.1 ≤ b.1) l

/-- Serialization used by `hash_sources`' combining step: one
`<path>:<hash>\n` entry per file, every entry newline-terminated. -/
def entryLineSer : List (String × String) → String
  | [] => ""
  | kv :: rest => kv.1 ++ ":" ++ kv.2 ++ "\n" ++ entryLineSer rest

/-- Rust's slice `join("\n")`: elements separated by newlines, with no
trailing newline. -/
def joinSep : List String → String
  | [] => ""
  | [s] => s
  | s :: rest@(_ :: _) => s ++ "\n" ++ joinSep rest

/-- Model of `hash_sources`: collect and hash the accepted files, then
feed `<path>`, `":"`, `<hash>`, `"\n"` per entry, in ascending key
order, into a fresh hasher. -/
def hashSources (h : String → String) (root : List (String × FsTree)) : String :=
  let sorted := sortByKey ((collectSources "" root).map (fun kc => (kc.1, h kc.2)))
  h (sorted.foldl (fun acc kv => acc ++ kv.1 ++ ":" ++ kv.2 ++ "\n") "")

/-- Model of `compute_dir_hash`: collect and hash all files except
`.git`, format each entry as `<path>:<hash>` and join the entries, in
ascending key order, with `"\n"` as separator, then hash the combined
string. -/
def computeDirHash (h : String → String) (root : List (String × FsTree)) : String :=
  let sorted := sortByKey ((collectAll "" root).map (fun kc => (kc.1, h kc.2)))
  h (joinSep (sorted.map (fun kv => kv.1 ++ ":" ++ kv.2)))

theorem foldl_entryLine (l : List (String × String)) :
    ∀ acc : String,
      l.foldl (fun acc kv => acc ++ kv.1 ++ ":" ++ kv.2 ++ "\n") acc
        = acc ++ entryLineSer l := by
  induction l with
  | nil => intro acc; simp [entryLineSer]
  | cons kv rest ih =>
    intro acc
    rw [List.foldl_cons, ih, entryLineSer]
    simp [String.append_assoc]

/-- Claim C8 is false on the code for `compute_dir_hash`: on a directory
holding the single file `a` with contents `x` (and with the hash
function instantiated to the identity, exposing the hashed
serialization), `compute_dir_hash` hashes `a:x` — entries joined by a
newline separator — whereas the claimed serialization is the
newline-terminated `a:x\n` that `hash_sources` uses; the two hashed
strings differ. -/
theorem compute_dir_hash_serialization_differs :
    computeDirHash (fun s => s) [("a", FsTree.file "x")] = "a:x"
      ∧ (fun s : String => s)
          (entryLineSer (sortByKey
            ((collectAll "" [("a", FsTree.file "x")]).map
              (fun kc => (kc.1, (fun s : String => s) kc.2))))) = "a:x\n"
      ∧ ("a:x" : String) ≠ "a:x\n" := by
  refine ⟨?_, ?_, by decide⟩
  · simp [computeDirHash, collectAll, joinRel, sortByKey, joinSep]
  · simp [entryLineSer, collectAll, joinRel, sortByKey]

/-- Claim C8 (amended): both implementations hash, in byte-sorted order
of relative path (the sorted entry list is an ordered permutation of the
collected entries), a serialization of one entry per accepted regular
file — but the serializations differ: `hash_sources` hashes
newline-terminated `<path>:<hash>\n` entries as the claim states, while
`compute_dir_hash` hashes `<path>:<hash>` entries joined by a newline
separator, which on a non-empty directory lacks the final newline
(`entryLineSer entries = joined entries ++ "\n"`). -/
theorem directory_hash_serializations (h : String → String)
    (root : List (String × FsTree)) :
    hashSources h root
        = h (entryLineSer (sortByKey
            ((collectSources "" root).map (fun kc => (kc.1, h kc.2)))))
      ∧ computeDirHash h root
        = h (joinSep ((sortByKey
            ((collectAll "" root).map (fun kc => (kc.1, h kc.2)))).map
              (fun kv => kv.1 ++ ":" ++ kv.2)))
      ∧ (∀ l : List (String × String),
          (sortByKey l).Pairwise (fun a b => a.1 ≤ b.1) ∧ (sortByKey l).Perm l)
      ∧ ∀ entries : List (String × String), entries ≠ [] →
          entryLineSer entries
            = joinSep (entries.map (fun kv => kv.1 ++ ":" ++ kv.2)) ++ "\n" := by
  refine ⟨?_, rfl, ?_, ?_⟩
  · simp only [hashSources, foldl_entryLine, String.empty_append]
  · intro l
    exact ⟨List.sorted_insertionSort _ l, List.perm_insertionSort _ l⟩
  · intro entries hne
    induction entries with
    | nil => exact absurd rfl hne
    | cons kv rest ih =>
      cases rest with
      | nil => simp [entryLineSer, joinSep]
      | cons kv2 rest2 =>
        rw [entryLineSer, ih (List.cons_ne_nil kv2 rest2)]
        simp [joinSep, String.append_assoc]

/-- Witness for the amended C8 theorem: the serialization relation at a
concrete one-entry list, and the two hash equalities at a concrete
directory under the identity hash function. -/
theorem directory_hash_serializations_witness :
    entryLineSer [("a", "x")]
      = joinSep ([("a", "x")].map (fun kv => kv.1 ++ ":" ++ kv.2)) ++ "\n" :=
  (directory_hash_serializations (fun s => s) []).2.2.2 [("a", "x")] (by simp)

/-- Witness for C9: a concrete two-entry solution containing the root,
with the membership hypothesis discharged by computation. -/
theorem resolution_source_always_registry_witness :
    (("log", (⟨"log", Version.new 1 5 4, ResolvedSource.Registry, []⟩ : ResolvedDep)).2.source
        = ResolvedSource.Registry)
      ∧ (("log", (⟨"log", Version.new 1 5 4, ResolvedSource.Registry, []⟩ : ResolvedDep)).2.name
        = ("log", (⟨"log", Version.new 1 5 4, ResolvedSource.Registry, []⟩ : ResolvedDep)).1)
      ∧ GustPackage.Named
          ("log", (⟨"log", Version.new 1 5 4, ResolvedSource.Registry, []⟩ : ResolvedDep)).1
        ∈ ([(GustPackage.Root, Version.new 0 0 0),
            (GustPackage.Named "log", Version.new 1 5 4)].map (fun pv => pv.1)) :=
  (resolution_source_always_registry (fun _ _ => []) (fun _ => [])
      [(GustPackage.Root, Version.new 0 0 0), (GustPackage.Named "log", Version.new 1 5 4)]).1
    ("log", ⟨"log", Version.new 1 5 4, ResolvedSource.Registry, []⟩) (by decide)

end Gust
